import Mathlib

/-!
Verification of the quote-management widget's reconciliation core
(`dom-manipulation/script.js`): the quote store, `normalizeText`,
`mergeWithServer`, `doSync` and `loadQuotes`, shallowly embedded as
executable Lean functions, together with theorems settling the spec's
claims about them.
-/

namespace QuoteSync

/-- A quote record: `{text, category}`, as stored in the `quotes` array. -/
structure Quote where
  text : String
  category : String
deriving DecidableEq, Repr

/-- The reconciliation summary `details = {added, updated, conflictsResolved}`
built by `mergeWithServer`. -/
structure Summary where
  added : Nat
  updated : Nat
  conflictsResolved : Nat
deriving DecidableEq, Repr

/-- Drop leading and trailing whitespace from a character list, the effect of
JS `String.prototype.trim` on the characters of a string. -/
def trimChars (cs : List Char) : List Char :=
  ((cs.dropWhile Char.isWhitespace).reverse.dropWhile Char.isWhitespace).reverse

/-- `normalizeText(t) = String(t || '').trim().toLowerCase()`
(script.js:393-395); for a string argument `t || ''` is `t` itself. The
trim and the (ASCII) case fold act on the string's characters. -/
def normalizeText (t : String) : String :=
  ⟨(trimChars t.data).map Char.toLower⟩

/-- The JS idiom `c || 'Uncategorized'`: an empty (or missing, which we render
as empty) category falls back to the default. -/
def defCat (c : String) : String :=
  if c = "" then "Uncategorized" else c

/-- The list of normalized texts of a store, in store order. -/
def keysOf (qs : List Quote) : List String :=
  qs.map (fun q => normalizeText q.text)

/-- The local map of `mergeWithServer` (script.js:400-404), modelled
extensionally: a JS `Map` used only through `set`/`get` is a function from
keys to values, where a later `set` on the same key overwrites an earlier
one. We store the index `idx`; the `q` component of the source's
`{q, idx}` entry is an alias of `quotes[idx]`, so reading `q` is reading
the store at `idx`. `buildLocalMapFrom i` plays `quotes.forEach` starting
at index `i`. -/
def buildLocalMapFrom : Nat → List Quote → (String → Option Nat) → (String → Option Nat)
  | _, [], m => m
  | i, q :: rest, m =>
      buildLocalMapFrom (i + 1) rest
        (fun k => if k = normalizeText q.text then some i else m k)

/-- `const localMap = new Map(); quotes.forEach((q, idx) => localMap.set(normalizeText(q.text), {q, idx}))`. -/
def buildLocalMap (qs : List Quote) : String → Option Nat :=
  buildLocalMapFrom 0 qs (fun _ => none)

/-- The body of `serverQuotes.forEach(sq => ...)` (script.js:407-424), one
remote record applied to the current store and summary. `lm` is the local
map, fixed before the loop and never updated by it. -/
def mergeStep (lm : String → Option Nat) (st : List Quote × Summary) (sq : Quote) :
    List Quote × Summary :=
  let key := normalizeText sq.text
  if key = "" then st           -- `if (!key) return; // skip empty`
  else
    match lm key with
    | some idx =>
      match st.1[idx]? with
      | some q =>
        -- `if ((localEntry.q.category || 'Uncategorized') !== (sq.category || 'Uncategorized'))`
        if defCat q.category ≠ defCat sq.category then
          (st.1.set idx { q with category := defCat sq.category },
           { st.2 with
              updated := st.2.updated + 1
              conflictsResolved := st.2.conflictsResolved + 1 })
        else st
      | none => st
    | none =>
      -- `quotes.push({ text: sq.text, category: sq.category || 'Uncategorized' })`
      (st.1 ++ [{ text := sq.text, category := defCat sq.category }],
       { st.2 with added := st.2.added + 1 })

/-- `mergeWithServer(serverQuotes)` (script.js:397-444): build the local map,
fold the remote snapshot through `mergeStep`, and report whether
`saveQuotes(); populateCategories()` ran (`if (details.added || details.updated)`).
The fire-and-forget posting of local-only quotes back to the server
(script.js:428-436) touches no local state and is not modelled. -/
def mergeWithServer (store serverQuotes : List Quote) :
    (List Quote × Summary) × Bool :=
  let lm := buildLocalMap store
  let r := serverQuotes.foldl (mergeStep lm) (store, ⟨0, 0, 0⟩)
  (r, r.2.added != 0 || r.2.updated != 0)

/-- `doSync` (script.js:447-470): fetch result in, `(store, summary?)` out.
A throwing `fetchServerQuotes` is caught before `mergeWithServer` runs, so
the store is returned untouched and the result is `none` (the JS `null`). -/
def doSync (fetchResult : Except Unit (List Quote)) (store : List Quote) :
    List Quote × Option Summary :=
  match fetchResult with
  | .error _ => (store, none)
  | .ok serverQuotes =>
      let r := mergeWithServer store serverQuotes
      (r.1.1, some r.1.2)

/-- JSON values, the possible results of a successful `JSON.parse`. -/
inductive JsValue where
  | str (s : String)
  | num (n : Int)
  | bool (b : Bool)
  | null
  | arr (xs : List JsValue)
  | obj (fields : List (String × JsValue))

/-- JS truthiness of a parsed JSON value. -/
def truthy : JsValue → Bool
  | .str s => s ≠ ""
  | .num n => n ≠ 0
  | .bool b => b
  | .null => false
  | .arr _ => true
  | .obj _ => true

/-- Field lookup `v.name`: `undefined` (here `none`) unless `v` is an object
with the field. -/
def jsField (v : JsValue) (name : String) : Option JsValue :=
  match v with
  | .obj fields => (fields.find? (fun p => p.1 = name)).map (·.2)
  | _ => none

/-- One entry of the persisted array, validated as in
`if (q && typeof q.text === 'string') quotes.push({text: q.text, category: q.category || 'Uncategorized'})`
(script.js:40-44). The embedding keeps categories as strings, per the
interchange format (optional string), so a non-string category field falls
back to the default. -/
def loadEntry (q : JsValue) : Option Quote :=
  if truthy q then
    match jsField q "text" with
    | some (.str t) =>
        some { text := t
               category :=
                 match jsField q "category" with
                 | some (.str c) => defCat c
                 | _ => "Uncategorized" }
    | _ => none
  else none

/-- `loadQuotes` (script.js:32-50) as a function of the parsed persisted
value and the prior store. `none` stands for an absent/empty raw value or a
raw value on which `JSON.parse` threw (the throw is caught before the store
is touched). On a parsed array the store is cleared (`quotes.length = 0`)
and refilled with the validated entries; any other parsed value leaves the
store alone. -/
def loadQuotes (parsed : Option JsValue) (store : List Quote) : List Quote :=
  match parsed with
  | none => store
  | some v =>
      match v with
      | .arr xs => xs.filterMap loadEntry
      | _ => store

/-- The built-in seed quotes (script.js:6-10). -/
def initialQuotes : List Quote :=
  [ { text := "The only way to do great work is to love what you do.", category := "Inspirational" },
    { text := "Life is what happens when you're busy making other plans.", category := "Life" },
    { text := "Be yourself; everyone else is already taken.", category := "Humor" } ]

/-- Spec-side mirror of the map lookup: the index of the LAST element of the
key list equal to `k`, if any. -/
def lastIdxOf : List String → String → Option Nat
  | [], _ => none
  | s :: rest, k =>
      match lastIdxOf rest k with
      | some j => some (j + 1)
      | none => if k = s then some 0 else none

/-- The nonempty normalized texts of a remote snapshot, in order. -/
def snapKeys (rs : List Quote) : List String :=
  (rs.map (fun r => normalizeText r.text)).filter (fun k => k != "")

/-! ### Basic facts about the defaulting and key functions -/

theorem defCat_ne_empty (c : String) : defCat c ≠ "" := by
  unfold defCat
  split
  · intro h
    exact absurd h (by decide)
  · assumption

theorem defCat_defCat (c : String) : defCat (defCat c) = defCat c := by
  unfold defCat
  split
  · rfl
  · simp [*]

theorem keysOf_length (qs : List Quote) : (keysOf qs).length = qs.length :=
  List.length_map _ _

theorem keysOf_getElem? (qs : List Quote) (i : Nat) :
    (keysOf qs)[i]? = (qs[i]?).map (fun q => normalizeText q.text) :=
  List.getElem?_map _ qs i

theorem keysOf_append (qs qs' : List Quote) :
    keysOf (qs ++ qs') = keysOf qs ++ keysOf qs' :=
  List.map_append _ qs qs'

theorem set_getElem?_eq {α : Type} (l : List α) (i : Nat) (a : α)
    (h : l[i]? = some a) : l.set i a = l := by
  induction l generalizing i with
  | nil => simp at h
  | cons b t ih =>
    cases i with
    | zero =>
      simp at h
      simp [h]
    | succ n =>
      simp at h
      simp [ih n h]

theorem keysOf_set (qs : List Quote) (i : Nat) (q q' : Quote)
    (hq : qs[i]? = some q) (ht : q'.text = q.text) :
    keysOf (qs.set i q') = keysOf qs := by
  unfold keysOf
  rw [List.map_set]
  apply set_getElem?_eq
  rw [List.getElem?_map, hq, ht]
  rfl

theorem mem_keysOf (qs : List Quote) (k : String) :
    k ∈ keysOf qs ↔ ∃ q ∈ qs, normalizeText q.text = k := by
  unfold keysOf
  simp

/-! ### The last-occurrence index function -/

theorem lastIdxOf_cons (s k : String) (rest : List String) :
    lastIdxOf (s :: rest) k =
      match lastIdxOf rest k with
      | some j => some (j + 1)
      | none => if k = s then some 0 else none := rfl

theorem lastIdxOf_getElem? (ks : List String) (k : String) (j : Nat)
    (h : lastIdxOf ks k = some j) : ks[j]? = some k := by
  induction ks generalizing j with
  | nil => simp [lastIdxOf] at h
  | cons s rest ih =>
    rw [lastIdxOf_cons] at h
    cases hr : lastIdxOf rest k with
    | some j' =>
      rw [hr] at h
      cases h
      simpa using ih j' hr
    | none =>
      rw [hr] at h
      by_cases hk : k = s
      · simp [hk] at h
        simp [← h, hk]
      · simp [hk] at h

theorem lastIdxOf_isSome_of_mem (ks : List String) (k : String)
    (h : k ∈ ks) : (lastIdxOf ks k).isSome := by
  induction ks with
  | nil => simp at h
  | cons s rest ih =>
    rw [lastIdxOf_cons]
    cases hr : lastIdxOf rest k with
    | some j => simp
    | none =>
      rcases List.mem_cons.mp h with he | hmem
      · simp [he]
      · have := ih hmem
        rw [hr] at this
        simp at this

theorem lastIdxOf_eq_none_iff (ks : List String) (k : String) :
    lastIdxOf ks k = none ↔ k ∉ ks := by
  constructor
  · intro h hmem
    have := lastIdxOf_isSome_of_mem ks k hmem
    rw [h] at this
    simp at this
  · intro hmem
    cases h : lastIdxOf ks k with
    | none => rfl
    | some j =>
      exact absurd (List.getElem?_mem (lastIdxOf_getElem? ks k j h)) hmem

theorem lastIdxOf_lt_length (ks : List String) (k : String) (j : Nat)
    (h : lastIdxOf ks k = some j) : j < ks.length := by
  have := lastIdxOf_getElem? ks k j h
  exact (List.getElem?_eq_some.mp this).1

theorem lastIdxOf_last (ks : List String) (k : String) (j : Nat)
    (h : lastIdxOf ks k = some j) : ∀ l, j < l → ks[l]? ≠ some k := by
  induction ks generalizing j with
  | nil => simp [lastIdxOf] at h
  | cons s rest ih =>
    rw [lastIdxOf_cons] at h
    intro l hl
    cases hr : lastIdxOf rest k with
    | some j' =>
      rw [hr] at h
      cases h
      cases l with
      | zero => omega
      | succ l' =>
        simp only [List.getElem?_cons_succ]
        exact ih j' hr l' (by omega)
    | none =>
      rw [hr] at h
      by_cases hk : k = s
      · simp [hk] at h
        subst h
        cases l with
        | zero => omega
        | succ l' =>
          simp only [List.getElem?_cons_succ]
          intro hc
          exact ((lastIdxOf_eq_none_iff rest k).mp hr) (List.getElem?_mem hc)
      · simp [hk] at h

theorem lastIdxOf_of_last_match (ks : List String) (k : String) (j : Nat)
    (hj : ks[j]? = some k) (hlast : ∀ l, j < l → ks[l]? ≠ some k) :
    lastIdxOf ks k = some j := by
  cases h : lastIdxOf ks k with
  | none =>
    exact absurd (List.getElem?_mem hj) ((lastIdxOf_eq_none_iff ks k).mp h)
  | some j' =>
    have h1 := lastIdxOf_getElem? ks k j' h
    have h2 := lastIdxOf_last ks k j' h
    by_cases hjj : j' = j
    · rw [hjj]
    · rcases Nat.lt_or_ge j' j with hlt | hge
      · exact absurd hj (h2 j hlt)
      · exact absurd h1 (hlast j' (by omega))

theorem lastIdxOf_append (ks ks' : List String) (k : String) :
    lastIdxOf (ks ++ ks') k =
      match lastIdxOf ks' k with
      | some j => some (ks.length + j)
      | none => lastIdxOf ks k := by
  induction ks with
  | nil =>
    simp only [List.nil_append, List.length_nil]
    cases h : lastIdxOf ks' k <;> simp [h, lastIdxOf]
  | cons s rest ih =>
    simp only [List.cons_append, List.length_cons]
    rw [lastIdxOf_cons, ih, lastIdxOf_cons]
    cases h : lastIdxOf ks' k with
    | some j => simp [Nat.succ_add, Nat.add_right_comm]
    | none => cases hr : lastIdxOf rest k <;> simp [hr]

theorem lastIdxOf_concat (ks : List String) (s k : String) :
    lastIdxOf (ks ++ [s]) k =
      if k = s then some ks.length else lastIdxOf ks k := by
  rw [lastIdxOf_append]
  by_cases hk : k = s
  · simp [lastIdxOf, hk]
  · simp [lastIdxOf, hk]

/-! ### `buildLocalMap` looks up the last occurrence -/

theorem buildLocalMapFrom_eq (qs : List Quote) :
    ∀ (i : Nat) (m : String → Option Nat) (k : String),
      buildLocalMapFrom i qs m k =
        match lastIdxOf (keysOf qs) k with
        | some j => some (i + j)
        | none => m k := by
  induction qs with
  | nil => intro i m k; simp [buildLocalMapFrom, keysOf, lastIdxOf]
  | cons q rest ih =>
    intro i m k
    show buildLocalMapFrom (i + 1) rest
        (fun k => if k = normalizeText q.text then some i else m k) k = _
    rw [ih]
    show _ = match lastIdxOf (normalizeText q.text :: keysOf rest) k with
      | some j => some (i + j)
      | none => m k
    rw [lastIdxOf_cons]
    cases h : lastIdxOf (keysOf rest) k with
    | some j =>
      show some (i + 1 + j) = some (i + (j + 1))
      congr 1
      omega
    | none =>
      by_cases hk : k = normalizeText q.text
      · simp [hk]
      · simp [hk]

theorem buildLocalMap_eq (qs : List Quote) (k : String) :
    buildLocalMap qs k = lastIdxOf (keysOf qs) k := by
  unfold buildLocalMap
  rw [buildLocalMapFrom_eq]
  cases h : lastIdxOf (keysOf qs) k <;> simp [h]

/-! ### Case analysis of a single merge step -/

theorem mergeStep_cases (lm : String → Option Nat) (st : List Quote × Summary) (sq : Quote) :
    mergeStep lm st sq = st ∨
    (∃ idx q, normalizeText sq.text ≠ "" ∧ lm (normalizeText sq.text) = some idx ∧
       st.1[idx]? = some q ∧ defCat q.category ≠ defCat sq.category ∧
       mergeStep lm st sq =
         (st.1.set idx { q with category := defCat sq.category },
          { st.2 with
              updated := st.2.updated + 1
              conflictsResolved := st.2.conflictsResolved + 1 })) ∨
    (normalizeText sq.text ≠ "" ∧ lm (normalizeText sq.text) = none ∧
     mergeStep lm st sq =
       (st.1 ++ [{ text := sq.text, category := defCat sq.category }],
        { st.2 with added := st.2.added + 1 })) := by
  by_cases hk : normalizeText sq.text = ""
  · left
    simp [mergeStep, hk]
  · cases hlm : lm (normalizeText sq.text) with
    | none =>
      right; right
      exact ⟨hk, rfl, by simp [mergeStep, hk, hlm]⟩
    | some idx =>
      cases hq : st.1[idx]? with
      | none =>
        left
        simp [mergeStep, hk, hlm, hq]
      | some q =>
        by_cases hcat : defCat q.category ≠ defCat sq.category
        · right; left
          exact ⟨idx, q, hk, rfl, hq, hcat, by simp [mergeStep, hk, hlm, hq, hcat]⟩
        · left
          simp [mergeStep, hk, hlm, hq, hcat]

/-! ### Counter monotonicity and frame lemmas for the fold -/

theorem mergeStep_added_le (lm : String → Option Nat) (st : List Quote × Summary) (sq : Quote) :
    st.2.added ≤ (mergeStep lm st sq).2.added := by
  rcases mergeStep_cases lm st sq with h | ⟨idx, q, _, _, _, _, h⟩ | ⟨_, _, h⟩ <;>
    simp [h]

theorem mergeStep_updated_le (lm : String → Option Nat) (st : List Quote × Summary) (sq : Quote) :
    st.2.updated ≤ (mergeStep lm st sq).2.updated := by
  rcases mergeStep_cases lm st sq with h | ⟨idx, q, _, _, _, _, h⟩ | ⟨_, _, h⟩ <;>
    simp [h]

theorem foldl_added_le (lm : String → Option Nat) (R : List Quote) :
    ∀ st : List Quote × Summary, st.2.added ≤ (R.foldl (mergeStep lm) st).2.added := by
  induction R with
  | nil => intro st; simp
  | cons r rest ih =>
    intro st
    exact le_trans (mergeStep_added_le lm st r) (ih (mergeStep lm st r))

theorem foldl_updated_le (lm : String → Option Nat) (R : List Quote) :
    ∀ st : List Quote × Summary, st.2.updated ≤ (R.foldl (mergeStep lm) st).2.updated := by
  induction R with
  | nil => intro st; simp
  | cons r rest ih =>
    intro st
    exact le_trans (mergeStep_updated_le lm st r) (ih (mergeStep lm st r))

theorem mergeStep_eq_self (lm : String → Option Nat) (st : List Quote × Summary) (sq : Quote)
    (ha : (mergeStep lm st sq).2.added = st.2.added)
    (hu : (mergeStep lm st sq).2.updated = st.2.updated) :
    mergeStep lm st sq = st := by
  rcases mergeStep_cases lm st sq with h | ⟨idx, q, _, _, _, _, h⟩ | ⟨_, _, h⟩
  · exact h
  · rw [h] at hu
    simp at hu
  · rw [h] at ha
    simp at ha

theorem foldl_counters_frame (lm : String → Option Nat) (R : List Quote) :
    ∀ st : List Quote × Summary,
      (R.foldl (mergeStep lm) st).2.added = st.2.added →
      (R.foldl (mergeStep lm) st).2.updated = st.2.updated →
      R.foldl (mergeStep lm) st = st := by
  induction R with
  | nil => intro st _ _; rfl
  | cons r rest ih =>
    intro st ha hu
    simp only [List.foldl_cons] at ha hu ⊢
    have h1 : (mergeStep lm st r).2.added = st.2.added := by
      have := mergeStep_added_le lm st r
      have := foldl_added_le lm rest (mergeStep lm st r)
      omega
    have h2 : (mergeStep lm st r).2.updated = st.2.updated := by
      have := mergeStep_updated_le lm st r
      have := foldl_updated_le lm rest (mergeStep lm st r)
      omega
    have hstep := mergeStep_eq_self lm st r h1 h2
    rw [hstep] at ha hu ⊢
    exact ih st ha hu

/-! ### The two conflict counters move together -/

theorem mergeStep_updated_eq_conflicts (lm : String → Option Nat)
    (st : List Quote × Summary) (sq : Quote)
    (h : st.2.updated = st.2.conflictsResolved) :
    (mergeStep lm st sq).2.updated = (mergeStep lm st sq).2.conflictsResolved := by
  rcases mergeStep_cases lm st sq with he | ⟨idx, q, _, _, _, _, he⟩ | ⟨_, _, he⟩ <;>
    rw [he] <;> simp [h]

theorem foldl_updated_eq_conflicts (lm : String → Option Nat) (R : List Quote) :
    ∀ st : List Quote × Summary, st.2.updated = st.2.conflictsResolved →
      (R.foldl (mergeStep lm) st).2.updated = (R.foldl (mergeStep lm) st).2.conflictsResolved := by
  induction R with
  | nil => intro st h; exact h
  | cons r rest ih =>
    intro st h
    simp only [List.foldl_cons]
    exact ih (mergeStep lm st r) (mergeStep_updated_eq_conflicts lm st r h)

/-! ### No additions when every key is already in the map -/

theorem mergeStep_added_eq_of_key (lm : String → Option Nat)
    (st : List Quote × Summary) (sq : Quote)
    (h : normalizeText sq.text = "" ∨ lm (normalizeText sq.text) ≠ none) :
    (mergeStep lm st sq).2.added = st.2.added := by
  rcases mergeStep_cases lm st sq with he | ⟨idx, q, _, _, _, _, he⟩ | ⟨hk, hlm, he⟩
  · rw [he]
  · rw [he]
  · rcases h with h | h
    · exact absurd h hk
    · exact absurd hlm h

theorem foldl_added_eq_of_keys (lm : String → Option Nat) (R : List Quote) :
    ∀ st : List Quote × Summary,
      (∀ r ∈ R, normalizeText r.text = "" ∨ lm (normalizeText r.text) ≠ none) →
      (R.foldl (mergeStep lm) st).2.added = st.2.added := by
  induction R with
  | nil => intro st _; rfl
  | cons r rest ih =>
    intro st h
    simp only [List.foldl_cons]
    rw [ih (mergeStep lm st r) (fun r' hr' => h r' (List.mem_cons_of_mem r hr'))]
    exact mergeStep_added_eq_of_key lm st r (h r (List.mem_cons_self r rest))

/-! ### Stable records: records a merge step cannot change -/

/-- A remote record the merge leaves alone: its key is empty, or the map
finds a local quote whose (defaulted) category already agrees. -/
def Stable (lm : String → Option Nat) (s : List Quote) (r : Quote) : Prop :=
  normalizeText r.text = "" ∨
  ∃ idx q, lm (normalizeText r.text) = some idx ∧ s[idx]? = some q ∧
    defCat q.category = defCat r.category

theorem mergeStep_of_stable (lm : String → Option Nat) (s : List Quote) (d : Summary)
    (r : Quote) (h : Stable lm s r) : mergeStep lm (s, d) r = (s, d) := by
  rcases h with he | ⟨idx, q, hlm, hq, hcat⟩
  · simp [mergeStep, he]
  · by_cases hk : normalizeText r.text = ""
    · simp [mergeStep, hk]
    · simp [mergeStep, hk, hlm, hq, hcat]

theorem foldl_of_stable (lm : String → Option Nat) (s : List Quote) (d : Summary)
    (R : List Quote) (h : ∀ r ∈ R, Stable lm s r) :
    R.foldl (mergeStep lm) (s, d) = (s, d) := by
  induction R with
  | nil => rfl
  | cons r rest ih =>
    simp only [List.foldl_cons]
    rw [mergeStep_of_stable lm s d r (h r (List.mem_cons_self r rest))]
    exact ih (fun r' hr' => h r' (List.mem_cons_of_mem r hr'))

/-! ### Keys only accumulate during a merge pass -/

theorem mergeStep_keys_mono (lm : String → Option Nat) (st : List Quote × Summary)
    (sq : Quote) (k : String) (h : k ∈ keysOf st.1) : k ∈ keysOf (mergeStep lm st sq).1 := by
  rcases mergeStep_cases lm st sq with he | ⟨idx, q, _, _, hq, _, he⟩ | ⟨_, _, he⟩
  · rw [he]
    exact h
  · rw [he]
    show k ∈ keysOf (st.1.set idx { q with category := defCat sq.category })
    rw [keysOf_set st.1 idx q { q with category := defCat sq.category } hq rfl]
    exact h
  · rw [he]
    show k ∈ keysOf (st.1 ++ [{ text := sq.text, category := defCat sq.category }])
    rw [keysOf_append]
    exact List.mem_append_left _ h

theorem foldl_keys_mono (lm : String → Option Nat) (R : List Quote) :
    ∀ (st : List Quote × Summary) (k : String), k ∈ keysOf st.1 →
      k ∈ keysOf (R.foldl (mergeStep lm) st).1 := by
  induction R with
  | nil => intro st k h; exact h
  | cons r rest ih =>
    intro st k h
    simp only [List.foldl_cons]
    exact ih (mergeStep lm st r) k (mergeStep_keys_mono lm st r k h)

/-- After a merge pass every nonempty remote key occurs in the store. -/
theorem pass1_key_mem (s : List Quote) (R : List Quote) :
    ∀ st : List Quote × Summary, (∀ k ∈ keysOf s, k ∈ keysOf st.1) →
      ∀ r ∈ R, normalizeText r.text ≠ "" →
        normalizeText r.text ∈ keysOf (R.foldl (mergeStep (buildLocalMap s)) st).1 := by
  induction R with
  | nil => intro st _ r hr; simp at hr
  | cons r' rest ih =>
    intro st hsub r hr hk
    simp only [List.foldl_cons]
    rcases List.mem_cons.mp hr with he | hmem
    · subst he
      cases hlm : buildLocalMap s (normalizeText r.text) with
      | some idx =>
        rw [buildLocalMap_eq] at hlm
        have h1 := lastIdxOf_getElem? _ _ _ hlm
        have h2 : normalizeText r.text ∈ keysOf s := List.getElem?_mem h1
        exact foldl_keys_mono _ rest _ _
          (mergeStep_keys_mono _ st r _ (hsub _ h2))
      | none =>
        have hstep : (mergeStep (buildLocalMap s) st r).1 =
            st.1 ++ [{ text := r.text, category := defCat r.category }] := by
          simp [mergeStep, hk, hlm]
        apply foldl_keys_mono _ rest
        rw [hstep, keysOf_append]
        apply List.mem_append_right
        simp [keysOf]
    · exact ih (mergeStep (buildLocalMap s) st r')
        (fun k hks => mergeStep_keys_mono _ st r' k (hsub k hks)) r hmem hk

/-! ### Matched records survive a merge pass -/

/-- A remote record is matched in a store: the last store entry bearing its
normalized text already carries its (defaulted) category. -/
def Matched (t : List Quote) (r : Quote) : Prop :=
  ∃ idx q, lastIdxOf (keysOf t) (normalizeText r.text) = some idx ∧
    t[idx]? = some q ∧ defCat q.category = defCat r.category

theorem snapKeys_cons (r : Quote) (rest : List Quote) :
    snapKeys (r :: rest) =
      if normalizeText r.text = "" then snapKeys rest
      else normalizeText r.text :: snapKeys rest := by
  unfold snapKeys
  simp only [List.map_cons, List.filter_cons]
  by_cases h : normalizeText r.text = "" <;> simp [h]

/-- A merge step for one remote record keeps every record with a different
key matched. -/
theorem mergeStep_preserves_matched (s : List Quote) (st : List Quote × Summary)
    (extra : List String) (hkeys : keysOf st.1 = keysOf s ++ extra)
    (r' r'' : Quote) (hm : Matched st.1 r'')
    (hne : normalizeText r''.text ≠ normalizeText r'.text) :
    Matched (mergeStep (buildLocalMap s) st r').1 r'' := by
  obtain ⟨idx, q, hlast, hq, hcat⟩ := hm
  rcases mergeStep_cases (buildLocalMap s) st r' with
    he | ⟨idx', q', hk', hlm', hq', hcat', he⟩ | ⟨hk', hlm', he⟩
  · rw [he]
    exact ⟨idx, q, hlast, hq, hcat⟩
  · rw [he]
    have hkeq : keysOf (st.1.set idx' { q' with category := defCat r'.category }) =
        keysOf st.1 :=
      keysOf_set st.1 idx' q' { q' with category := defCat r'.category } hq' rfl
    have hidx'k : (keysOf st.1)[idx']? = some (normalizeText r'.text) := by
      rw [buildLocalMap_eq] at hlm'
      have hg := lastIdxOf_getElem? _ _ _ hlm'
      have hl := lastIdxOf_lt_length _ _ _ hlm'
      rw [hkeys, List.getElem?_append_left hl]
      exact hg
    have hidxk : (keysOf st.1)[idx]? = some (normalizeText r''.text) :=
      lastIdxOf_getElem? _ _ _ hlast
    have hii : idx' ≠ idx := by
      intro hcontra
      rw [hcontra, hidxk] at hidx'k
      exact hne (by injection hidx'k)
    refine ⟨idx, q, ?_, ?_, hcat⟩
    · show lastIdxOf (keysOf (st.1.set idx' { q' with category := defCat r'.category })) _ = _
      rw [hkeq]
      exact hlast
    · show (st.1.set idx' { q' with category := defCat r'.category })[idx]? = some q
      rw [List.getElem?_set_ne hii]
      exact hq
  · rw [he]
    refine ⟨idx, q, ?_, ?_, hcat⟩
    · show lastIdxOf (keysOf (st.1 ++ [{ text := r'.text, category := defCat r'.category }])) _ = _
      rw [keysOf_append]
      have hone : keysOf [{ text := r'.text, category := defCat r'.category }] =
          [normalizeText r'.text] := rfl
      rw [hone, lastIdxOf_concat, if_neg hne]
      exact hlast
    · show (st.1 ++ [{ text := r'.text, category := defCat r'.category }])[idx]? = some q
      have hlt : idx < (keysOf st.1).length := lastIdxOf_lt_length _ _ _ hlast
      rw [keysOf_length] at hlt
      rw [List.getElem?_append_left hlt]
      exact hq

/-- Main invariant of one merge pass: provided the snapshot's nonempty keys
are pairwise distinct and the store's keys are those of the original store
`s` (on which the local map was built) followed by keys the pass itself
pushed, after the pass every nonempty-keyed remote record is matched and
every previously matched record with a key outside the snapshot stays
matched. -/
theorem pass1_matched (s : List Quote) :
    ∀ (todo : List Quote) (st : List Quote × Summary) (extra : List String),
      keysOf st.1 = keysOf s ++ extra →
      (∀ k ∈ extra, k ∉ snapKeys todo) →
      (snapKeys todo).Nodup →
      (∀ r ∈ todo, normalizeText r.text ≠ "" →
         Matched (todo.foldl (mergeStep (buildLocalMap s)) st).1 r) ∧
      (∀ r', Matched st.1 r' → normalizeText r'.text ∉ snapKeys todo →
         Matched (todo.foldl (mergeStep (buildLocalMap s)) st).1 r') := by
  intro todo
  induction todo with
  | nil =>
    intro st extra _ _ _
    exact ⟨fun r hr => absurd hr (by simp), fun r' hm _ => hm⟩
  | cons r' rest ih =>
    intro st extra h1 h2 h3
    simp only [List.foldl_cons]
    by_cases hk' : normalizeText r'.text = ""
    · have hstep : mergeStep (buildLocalMap s) st r' = st := by
        simp [mergeStep, hk']
      rw [hstep]
      have hsnap : snapKeys (r' :: rest) = snapKeys rest := by
        rw [snapKeys_cons, if_pos hk']
      rw [hsnap] at h2 h3
      obtain ⟨iha, ihb⟩ := ih st extra h1 h2 h3
      refine ⟨?_, ?_⟩
      · intro r hr hk
        rcases List.mem_cons.mp hr with he | hmem
        · subst he
          exact absurd hk' hk
        · exact iha r hmem hk
      · intro r'' hm hnot
        rw [hsnap] at hnot
        exact ihb r'' hm hnot
    · have hsnap : snapKeys (r' :: rest) = normalizeText r'.text :: snapKeys rest := by
        rw [snapKeys_cons, if_neg hk']
      have hk'mem : normalizeText r'.text ∈ snapKeys (r' :: rest) := by
        rw [hsnap]
        exact List.mem_cons_self _ _
      have hnotin_extra : normalizeText r'.text ∉ extra := fun hc => h2 _ hc hk'mem
      have h3r : (snapKeys rest).Nodup := by
        rw [hsnap] at h3
        exact (List.nodup_cons.mp h3).2
      have hk'notrest : normalizeText r'.text ∉ snapKeys rest := by
        rw [hsnap] at h3
        exact (List.nodup_cons.mp h3).1
      have h2r : ∀ k ∈ extra, k ∉ snapKeys rest := fun k hk hmem =>
        h2 k hk (by rw [hsnap]; exact List.mem_cons_of_mem _ hmem)
      cases hlm : buildLocalMap s (normalizeText r'.text) with
      | some idx' =>
        have hlm2 := hlm
        rw [buildLocalMap_eq] at hlm2
        have hgs : (keysOf s)[idx']? = some (normalizeText r'.text) :=
          lastIdxOf_getElem? _ _ _ hlm2
        have hlt : idx' < (keysOf s).length := lastIdxOf_lt_length _ _ _ hlm2
        have hst1 : (keysOf st.1)[idx']? = some (normalizeText r'.text) := by
          rw [h1, List.getElem?_append_left hlt]
          exact hgs
        have hex : ∃ q', st.1[idx']? = some q' ∧
            normalizeText q'.text = normalizeText r'.text := by
          rw [keysOf_getElem?] at hst1
          cases hq : st.1[idx']? with
          | none =>
            rw [hq] at hst1
            simp at hst1
          | some q' =>
            rw [hq] at hst1
            simp at hst1
            exact ⟨q', rfl, hst1⟩
        obtain ⟨q', hgq', hqk'⟩ := hex
        have hlcur : lastIdxOf (keysOf st.1) (normalizeText r'.text) = some idx' := by
          rw [h1, lastIdxOf_append, (lastIdxOf_eq_none_iff extra _).mpr hnotin_extra]
          exact hlm2
        by_cases hcat : defCat q'.category ≠ defCat r'.category
        · have hstep : mergeStep (buildLocalMap s) st r' =
              (st.1.set idx' { q' with category := defCat r'.category },
               { st.2 with
                  updated := st.2.updated + 1
                  conflictsResolved := st.2.conflictsResolved + 1 }) := by
            simp [mergeStep, hk', hlm, hgq', hcat]
          have hkeq : keysOf (st.1.set idx' { q' with category := defCat r'.category }) =
              keysOf st.1 :=
            keysOf_set st.1 idx' q' { q' with category := defCat r'.category } hgq' rfl
          have hm' : Matched (mergeStep (buildLocalMap s) st r').1 r' := by
            rw [hstep]
            refine ⟨idx', { q' with category := defCat r'.category }, ?_, ?_, ?_⟩
            · show lastIdxOf
                (keysOf (st.1.set idx' { q' with category := defCat r'.category })) _ = _
              rw [hkeq]
              exact hlcur
            · show (st.1.set idx' { q' with category := defCat r'.category })[idx']? = _
              apply List.getElem?_set_self
              rw [← keysOf_length, h1]
              calc idx' < (keysOf s).length := hlt
                _ ≤ (keysOf s ++ extra).length := by simp
            · exact defCat_defCat _
          have h1' : keysOf (mergeStep (buildLocalMap s) st r').1 = keysOf s ++ extra := by
            rw [hstep]
            show keysOf (st.1.set idx' { q' with category := defCat r'.category }) = _
            rw [hkeq]
            exact h1
          obtain ⟨iha, ihb⟩ := ih (mergeStep (buildLocalMap s) st r') extra h1' h2r h3r
          refine ⟨?_, ?_⟩
          · intro r hr hk
            rcases List.mem_cons.mp hr with he | hmem
            · subst he
              exact ihb r hm' hk'notrest
            · exact iha r hmem hk
          · intro r'' hm hnot
            rw [hsnap] at hnot
            have hnotrest : normalizeText r''.text ∉ snapKeys rest := fun hc =>
              hnot (List.mem_cons_of_mem _ hc)
            have hnek : normalizeText r''.text ≠ normalizeText r'.text := fun he =>
              hnot (he ▸ List.mem_cons_self _ _)
            exact ihb r'' (mergeStep_preserves_matched s st extra h1 r' r'' hm hnek) hnotrest
        · push_neg at hcat
          have hstep : mergeStep (buildLocalMap s) st r' = st := by
            simp [mergeStep, hk', hlm, hgq', hcat]
          rw [hstep]
          obtain ⟨iha, ihb⟩ := ih st extra h1 h2r h3r
          have hm' : Matched st.1 r' := ⟨idx', q', hlcur, hgq', hcat⟩
          refine ⟨?_, ?_⟩
          · intro r hr hk
            rcases List.mem_cons.mp hr with he | hmem
            · subst he
              exact ihb r hm' hk'notrest
            · exact iha r hmem hk
          · intro r'' hm hnot
            rw [hsnap] at hnot
            exact ihb r'' hm (fun hc => hnot (List.mem_cons_of_mem _ hc))
      | none =>
        have hstep : mergeStep (buildLocalMap s) st r' =
            (st.1 ++ [{ text := r'.text, category := defCat r'.category }],
             { st.2 with added := st.2.added + 1 }) := by
          simp [mergeStep, hk', hlm]
        have hone : keysOf [{ text := r'.text, category := defCat r'.category }] =
            [normalizeText r'.text] := rfl
        have h1' : keysOf (mergeStep (buildLocalMap s) st r').1 =
            keysOf s ++ (extra ++ [normalizeText r'.text]) := by
          rw [hstep]
          show keysOf (st.1 ++ [{ text := r'.text, category := defCat r'.category }]) = _
          rw [keysOf_append, hone, h1, List.append_assoc]
        have h2' : ∀ k ∈ extra ++ [normalizeText r'.text], k ∉ snapKeys rest := by
          intro k hk
          rcases List.mem_append.mp hk with hk | hk
          · exact h2r k hk
          · rw [List.mem_singleton.mp hk]
            exact hk'notrest
        obtain ⟨iha, ihb⟩ := ih (mergeStep (buildLocalMap s) st r')
          (extra ++ [normalizeText r'.text]) h1' h2' h3r
        have hm' : Matched (mergeStep (buildLocalMap s) st r').1 r' := by
          rw [hstep]
          refine ⟨st.1.length, { text := r'.text, category := defCat r'.category }, ?_, ?_, ?_⟩
          · show lastIdxOf
              (keysOf (st.1 ++ [{ text := r'.text, category := defCat r'.category }])) _ = _
            rw [keysOf_append, hone, lastIdxOf_concat, if_pos rfl, keysOf_length]
          · exact List.getElem?_concat_length _ _
          · exact defCat_defCat _
        refine ⟨?_, ?_⟩
        · intro r hr hk
          rcases List.mem_cons.mp hr with he | hmem
          · subst he
            exact ihb r hm' hk'notrest
          · exact iha r hmem hk
        · intro r'' hm hnot
          rw [hsnap] at hnot
          have hnotrest : normalizeText r''.text ∉ snapKeys rest := fun hc =>
            hnot (List.mem_cons_of_mem _ hc)
          have hnek : normalizeText r''.text ≠ normalizeText r'.text := fun he =>
            hnot (he ▸ List.mem_cons_self _ _)
          exact ihb r'' (mergeStep_preserves_matched s st extra h1 r' r'' hm hnek) hnotrest

/-- Nodup helper: appending one fresh element keeps a list duplicate-free. -/
theorem nodup_concat_of_not_mem {α : Type} (l : List α) (a : α)
    (h : l.Nodup) (h2 : a ∉ l) : (l ++ [a]).Nodup := by
  rw [List.nodup_append]
  refine ⟨h, List.nodup_singleton a, ?_⟩
  intro x hx he
  rw [List.mem_singleton] at he
  subst he
  exact h2 hx

/-- One merge pass never creates a duplicated key when the snapshot's
nonempty keys are pairwise distinct: the store's key list stays
duplicate-free. -/
theorem pass1_nodup (s : List Quote) :
    ∀ (todo : List Quote) (st : List Quote × Summary) (extra : List String),
      keysOf st.1 = keysOf s ++ extra →
      (∀ k ∈ extra, k ∉ snapKeys todo) →
      (snapKeys todo).Nodup →
      (keysOf st.1).Nodup →
      (keysOf (todo.foldl (mergeStep (buildLocalMap s)) st).1).Nodup := by
  intro todo
  induction todo with
  | nil =>
    intro st extra _ _ _ hnd
    exact hnd
  | cons r' rest ih =>
    intro st extra h1 h2 h3 hnd
    simp only [List.foldl_cons]
    by_cases hk' : normalizeText r'.text = ""
    · have hstep : mergeStep (buildLocalMap s) st r' = st := by
        simp [mergeStep, hk']
      rw [hstep]
      have hsnap : snapKeys (r' :: rest) = snapKeys rest := by
        rw [snapKeys_cons, if_pos hk']
      rw [hsnap] at h2 h3
      exact ih st extra h1 h2 h3 hnd
    · have hsnap : snapKeys (r' :: rest) = normalizeText r'.text :: snapKeys rest := by
        rw [snapKeys_cons, if_neg hk']
      have hk'mem : normalizeText r'.text ∈ snapKeys (r' :: rest) := by
        rw [hsnap]
        exact List.mem_cons_self _ _
      have hnotin_extra : normalizeText r'.text ∉ extra := fun hc => h2 _ hc hk'mem
      have h3r : (snapKeys rest).Nodup := by
        rw [hsnap] at h3
        exact (List.nodup_cons.mp h3).2
      have hk'notrest : normalizeText r'.text ∉ snapKeys rest := by
        rw [hsnap] at h3
        exact (List.nodup_cons.mp h3).1
      have h2r : ∀ k ∈ extra, k ∉ snapKeys rest := fun k hk hmem =>
        h2 k hk (by rw [hsnap]; exact List.mem_cons_of_mem _ hmem)
      cases hlm : buildLocalMap s (normalizeText r'.text) with
      | some idx' =>
        have hkeq : keysOf (mergeStep (buildLocalMap s) st r').1 = keysOf st.1 := by
          rcases mergeStep_cases (buildLocalMap s) st r' with
            he | ⟨idx'', q'', _, hlm'', hq'', _, he⟩ | ⟨_, hlm'', he⟩
          · rw [he]
          · rw [he]
            exact keysOf_set st.1 idx'' q''
              { q'' with category := defCat r'.category } hq'' rfl
          · rw [hlm] at hlm''
            cases hlm''
        apply ih (mergeStep (buildLocalMap s) st r') extra _ h2r h3r
        · rw [hkeq]
          exact hnd
        · rw [hkeq]
          exact h1
      | none =>
        have hstep : mergeStep (buildLocalMap s) st r' =
            (st.1 ++ [{ text := r'.text, category := defCat r'.category }],
             { st.2 with added := st.2.added + 1 }) := by
          simp [mergeStep, hk', hlm]
        have hone : keysOf [{ text := r'.text, category := defCat r'.category }] =
            [normalizeText r'.text] := rfl
        have hkeq : keysOf (mergeStep (buildLocalMap s) st r').1 =
            keysOf st.1 ++ [normalizeText r'.text] := by
          rw [hstep]
          show keysOf (st.1 ++ [{ text := r'.text, category := defCat r'.category }]) = _
          rw [keysOf_append, hone]
        have hnotin_s : normalizeText r'.text ∉ keysOf s := by
          rw [buildLocalMap_eq] at hlm
          exact (lastIdxOf_eq_none_iff _ _).mp hlm
        have hfresh : normalizeText r'.text ∉ keysOf st.1 := by
          rw [h1]
          intro hc
          rcases List.mem_append.mp hc with hc | hc
          · exact hnotin_s hc
          · exact hnotin_extra hc
        have h1' : keysOf (mergeStep (buildLocalMap s) st r').1 =
            keysOf s ++ (extra ++ [normalizeText r'.text]) := by
          rw [hkeq, h1, List.append_assoc]
        have h2' : ∀ k ∈ extra ++ [normalizeText r'.text], k ∉ snapKeys rest := by
          intro k hk
          rcases List.mem_append.mp hk with hk | hk
          · exact h2r k hk
          · rw [List.mem_singleton.mp hk]
            exact hk'notrest
        apply ih (mergeStep (buildLocalMap s) st r') (extra ++ [normalizeText r'.text])
          h1' h2' h3r
        rw [hkeq]
        exact nodup_concat_of_not_mem _ _ hnd hfresh

/-- Unfolding equation for `mergeWithServer`. -/
theorem mergeWithServer_def (s R : List Quote) :
    mergeWithServer s R =
      (R.foldl (mergeStep (buildLocalMap s)) (s, ⟨0, 0, 0⟩),
       ((R.foldl (mergeStep (buildLocalMap s)) (s, ⟨0, 0, 0⟩)).2.added != 0 ||
        (R.foldl (mergeStep (buildLocalMap s)) (s, ⟨0, 0, 0⟩)).2.updated != 0)) := rfl

/-- If no entry after position `j` carries key `k`, then no later position of
the store's key list holds `k`. -/
theorem keys_none_after_of_drop (s : List Quote) (k : String) (j : Nat)
    (hafter : ∀ q' ∈ s.drop (j + 1), normalizeText q'.text ≠ k) :
    ∀ l, j < l → (keysOf s)[l]? ≠ some k := by
  intro l hl hc
  rw [keysOf_getElem?] at hc
  cases hq' : s[l]? with
  | none =>
    rw [hq'] at hc
    simp at hc
  | some q' =>
    rw [hq'] at hc
    simp at hc
    apply hafter q' _ hc
    have hdrop : (s.drop (j + 1))[l - (j + 1)]? = s[l]? := by
      rw [List.getElem?_drop]
      congr 1
      omega
    exact List.getElem?_mem (by rw [hdrop]; exact hq')

/-! ## The claims -/

/-- Claim C10 (confirmed): for every store and snapshot, the summary built
by `mergeWithServer` has `updated = conflictsResolved` — the two counters
are only ever incremented together. -/
theorem merge_updated_eq_conflictsResolved (s R : List Quote) :
    (mergeWithServer s R).1.2.updated = (mergeWithServer s R).1.2.conflictsResolved := by
  rw [mergeWithServer_def]
  exact foldl_updated_eq_conflicts (buildLocalMap s) R (s, ⟨0, 0, 0⟩) rfl

/-- Claim C6 (confirmed): when the remote fetch fails, the sync cycle leaves
the store exactly as it was and returns the distinguishable failure outcome
(`none`, the JS `null`) instead of a summary. -/
theorem doSync_error_frame (e : Unit) (s : List Quote) :
    doSync (Except.error e) s = (s, none) := rfl

/-- Claim C7 (confirmed): `mergeWithServer` persists the store (runs
`saveQuotes()`/`populateCategories()`) exactly when `added + updated > 0`,
and when `added + updated = 0` the store comes back unchanged. -/
theorem merge_persistence_frame (s R : List Quote) :
    ((mergeWithServer s R).2 = true ↔
       0 < (mergeWithServer s R).1.2.added + (mergeWithServer s R).1.2.updated) ∧
    ((mergeWithServer s R).1.2.added + (mergeWithServer s R).1.2.updated = 0 →
       (mergeWithServer s R).1.1 = s) := by
  rw [mergeWithServer_def]
  dsimp only
  constructor
  · simp only [Bool.or_eq_true, bne_iff_ne, ne_eq]
    omega
  · intro h
    have ha : (R.foldl (mergeStep (buildLocalMap s)) (s, ⟨0, 0, 0⟩)).2.added = 0 := by
      omega
    have hu : (R.foldl (mergeStep (buildLocalMap s)) (s, ⟨0, 0, 0⟩)).2.updated = 0 := by
      omega
    have hres := foldl_counters_frame (buildLocalMap s) R (s, ⟨0, 0, 0⟩) ha hu
    rw [hres]

/-- Claim C7 witness: a snapshot that adds a quote flips the persistence
flag on; the empty snapshot leaves the seed store untouched. -/
theorem merge_persistence_frame_witness :
    (mergeWithServer [] [⟨"A", "X"⟩]).2 = true ∧
    (mergeWithServer initialQuotes []).1.1 = initialQuotes := by
  constructor
  · exact (merge_persistence_frame [] [⟨"A", "X"⟩]).1.mpr (by decide)
  · exact (merge_persistence_frame initialQuotes []).2 (by decide)

/-- Claim C9 (confirmed): a remote record whose text normalizes to the empty
string is skipped entirely by reconciliation — removing it from the snapshot
changes nothing about the merge's result, counters included. -/
theorem merge_ignores_empty_text (s : List Quote) (r : Quote) (pre post : List Quote)
    (h : normalizeText r.text = "") :
    mergeWithServer s (pre ++ r :: post) = mergeWithServer s (pre ++ post) := by
  rw [mergeWithServer_def, mergeWithServer_def]
  have hfold : (pre ++ r :: post).foldl (mergeStep (buildLocalMap s)) (s, ⟨0, 0, 0⟩)
      = (pre ++ post).foldl (mergeStep (buildLocalMap s)) (s, ⟨0, 0, 0⟩) := by
    rw [List.foldl_append, List.foldl_append, List.foldl_cons]
    congr 1
    simp [mergeStep, h]
  rw [hfold]

/-- Claim C9 witness: the empty-text remote record `{text:"", category:"Z"}`
produces no change at all on the seed store. -/
theorem merge_ignores_empty_text_witness :
    mergeWithServer initialQuotes [⟨"", "Z"⟩] = mergeWithServer initialQuotes [] ∧
    (mergeWithServer initialQuotes [⟨"", "Z"⟩]).1.1 = initialQuotes ∧
    (mergeWithServer initialQuotes [⟨"", "Z"⟩]).1.2 = ⟨0, 0, 0⟩ := by
  refine ⟨?_, by decide, by decide⟩
  have h := merge_ignores_empty_text initialQuotes ⟨"", "Z"⟩ [] [] (by decide)
  simpa using h

/-- Claim C5 (confirmed): a remote record is joined to the store (triggers no
addition) exactly when some local quote's text agrees with it after trimming
and lower-casing. -/
theorem merge_join_normalized (s : List Quote) (r : Quote)
    (hk : normalizeText r.text ≠ "") :
    ((mergeWithServer s [r]).1.2.added = 0 ↔
      ∃ q ∈ s, normalizeText q.text = normalizeText r.text) := by
  rw [mergeWithServer_def]
  simp only [List.foldl_cons, List.foldl_nil]
  cases hlm : buildLocalMap s (normalizeText r.text) with
  | some idx =>
    have hlm2 := hlm
    rw [buildLocalMap_eq] at hlm2
    have hmem : normalizeText r.text ∈ keysOf s :=
      List.getElem?_mem (lastIdxOf_getElem? _ _ _ hlm2)
    constructor
    · intro _
      exact (mem_keysOf s _).mp hmem
    · intro _
      exact mergeStep_added_eq_of_key (buildLocalMap s) (s, ⟨0, 0, 0⟩) r
        (Or.inr (by rw [hlm]; exact fun hc => Option.noConfusion hc))
  | none =>
    have hnm : normalizeText r.text ∉ keysOf s := by
      rw [buildLocalMap_eq] at hlm
      exact (lastIdxOf_eq_none_iff _ _).mp hlm
    constructor
    · intro hadd
      have hstep : (mergeStep (buildLocalMap s) (s, (⟨0, 0, 0⟩ : Summary)) r).2.added = 1 := by
        simp [mergeStep, hk, hlm]
      rw [hstep] at hadd
      cases hadd
    · rintro ⟨q, hq, hqk⟩
      exact absurd ((mem_keysOf s _).mpr ⟨q, hq, hqk⟩) hnm

/-- Claim C5 witness: the local quote `" Hello "` matches the remote record
`"hello"`, so that record adds nothing. -/
theorem merge_join_normalized_witness :
    (mergeWithServer [⟨" Hello ", "X"⟩] [⟨"hello", "Y"⟩]).1.2.added = 0 :=
  (merge_join_normalized [⟨" Hello ", "X"⟩] ⟨"hello", "Y"⟩ (by decide)).mpr
    ⟨⟨" Hello ", "X"⟩, by decide, by decide⟩

/-- Claim C2 (confirmed): when the store holds exactly one quote whose
normalized text matches a remote record's, a conflicting remote category
overwrites only that quote's category (its text survives inside the
updated entry) and bumps `updated` and `conflictsResolved` by one; when the
defaulted categories agree nothing changes and nothing is persisted. -/
theorem merge_remote_wins (s : List Quote) (r : Quote) (j : Nat) (q : Quote)
    (hk : normalizeText r.text ≠ "")
    (hq : s[j]? = some q)
    (hqk : normalizeText q.text = normalizeText r.text)
    (_hbefore : ∀ q' ∈ s.take j, normalizeText q'.text ≠ normalizeText r.text)
    (hafter : ∀ q' ∈ s.drop (j + 1), normalizeText q'.text ≠ normalizeText r.text) :
    (defCat q.category ≠ defCat r.category →
       mergeWithServer s [r] =
         ((s.set j { q with category := defCat r.category },
           ⟨0, 1, 1⟩), true)) ∧
    (defCat q.category = defCat r.category →
       mergeWithServer s [r] = ((s, ⟨0, 0, 0⟩), false)) := by
  have hkj : (keysOf s)[j]? = some (normalizeText r.text) := by
    rw [keysOf_getElem?, hq]
    simpa using hqk
  have hlast := keys_none_after_of_drop s (normalizeText r.text) j hafter
  have hlm : buildLocalMap s (normalizeText r.text) = some j := by
    rw [buildLocalMap_eq]
    exact lastIdxOf_of_last_match _ _ _ hkj hlast
  constructor
  · intro hcat
    have hstep : mergeStep (buildLocalMap s) (s, (⟨0, 0, 0⟩ : Summary)) r =
        (s.set j { q with category := defCat r.category }, ⟨0, 1, 1⟩) := by
      simp [mergeStep, hk, hlm, hq, hcat]
    rw [mergeWithServer_def]
    simp only [List.foldl_cons, List.foldl_nil, hstep]
    rfl
  · intro hcat
    have hstep : mergeStep (buildLocalMap s) (s, (⟨0, 0, 0⟩ : Summary)) r =
        (s, ⟨0, 0, 0⟩) := by
      simp [mergeStep, hk, hlm, hq, hcat]
    rw [mergeWithServer_def]
    simp only [List.foldl_cons, List.foldl_nil, hstep]
    rfl

/-- Claim C2 witness: local `{A, X}` merged with remote `{A, Y}` becomes
`{A, Y}` with `updated = 1`, `conflictsResolved = 1`; with remote `{A, X}`
nothing changes. -/
theorem merge_remote_wins_witness :
    mergeWithServer [⟨"A", "X"⟩] [⟨"A", "Y"⟩] = (([⟨"A", "Y"⟩], ⟨0, 1, 1⟩), true) ∧
    mergeWithServer [⟨"A", "X"⟩] [⟨"A", "X"⟩] = (([⟨"A", "X"⟩], ⟨0, 0, 0⟩), false) := by
  constructor
  · have h := (merge_remote_wins [⟨"A", "X"⟩] ⟨"A", "Y"⟩ 0 ⟨"A", "X"⟩
      (by decide) (by decide) (by decide) (by decide) (by decide)).1 (by decide)
    simpa using h
  · have h := (merge_remote_wins [⟨"A", "X"⟩] ⟨"A", "X"⟩ 0 ⟨"A", "X"⟩
      (by decide) (by decide) (by decide) (by decide) (by decide)).2 (by decide)
    simpa using h

/-- Claim C4 counterexample: with local duplicates `[{A,X}, {a,Y}]` (both
normalize to `a`) and conflicting remote `{A,Z}`, the SECOND entry is
overwritten, not the first as the claim states. -/
theorem merge_first_occurrence_counterexample :
    (mergeWithServer [⟨"A", "X"⟩, ⟨"a", "Y"⟩] [⟨"A", "Z"⟩]).1.1 =
      [⟨"A", "X"⟩, ⟨"a", "Z"⟩] ∧
    (mergeWithServer [⟨"A", "X"⟩, ⟨"a", "Y"⟩] [⟨"A", "Z"⟩]).1.1 ≠
      [⟨"A", "Z"⟩, ⟨"a", "Y"⟩] := by
  decide

/-- Claim C4 (corrected): the mapping `mergeWithServer` builds sends each
normalized text to the LAST store entry bearing it (later `Map.set` calls
overwrite earlier ones), so a conflicting remote record overwrites the last
such entry. -/
theorem merge_overwrites_last_occurrence (s : List Quote) (r : Quote) (j : Nat) (q : Quote)
    (hk : normalizeText r.text ≠ "")
    (hq : s[j]? = some q)
    (hqk : normalizeText q.text = normalizeText r.text)
    (hafter : ∀ q' ∈ s.drop (j + 1), normalizeText q'.text ≠ normalizeText r.text)
    (hcat : defCat q.category ≠ defCat r.category) :
    buildLocalMap s (normalizeText r.text) = some j ∧
    (mergeWithServer s [r]).1.1 = s.set j { q with category := defCat r.category } := by
  have hkj : (keysOf s)[j]? = some (normalizeText r.text) := by
    rw [keysOf_getElem?, hq]
    simpa using hqk
  have hlast := keys_none_after_of_drop s (normalizeText r.text) j hafter
  have hlm : buildLocalMap s (normalizeText r.text) = some j := by
    rw [buildLocalMap_eq]
    exact lastIdxOf_of_last_match _ _ _ hkj hlast
  refine ⟨hlm, ?_⟩
  have hstep : mergeStep (buildLocalMap s) (s, (⟨0, 0, 0⟩ : Summary)) r =
      (s.set j { q with category := defCat r.category }, ⟨0, 1, 1⟩) := by
    simp [mergeStep, hk, hlm, hq, hcat]
  rw [mergeWithServer_def]
  simp only [List.foldl_cons, List.foldl_nil, hstep]

/-- Claim C4 witness: in the duplicate store `[{A,X}, {a,Y}]` the map sends
key `a` to index 1 and the conflicting remote `{A,Z}` rewrites entry 1. -/
theorem merge_overwrites_last_occurrence_witness :
    buildLocalMap [⟨"A", "X"⟩, ⟨"a", "Y"⟩] (normalizeText "A") = some 1 ∧
    (mergeWithServer [⟨"A", "X"⟩, ⟨"a", "Y"⟩] [⟨"A", "Z"⟩]).1.1 =
      [⟨"A", "X"⟩, ⟨"a", "Z"⟩] := by
  have h := merge_overwrites_last_occurrence [⟨"A", "X"⟩, ⟨"a", "Y"⟩] ⟨"A", "Z"⟩ 1
    ⟨"a", "Y"⟩ (by decide) (by decide) (by decide) (by decide) (by decide)
  exact ⟨h.1, by simpa using h.2⟩

/-- Claim C1 counterexample: with the snapshot `[{B,Y}, {b,Z}]`, whose two
records share the normalized text `b`, the first pass over the empty store
adds both records (the local map is never refreshed mid-pass), and the
second pass reports `updated = 2`, not `updated = 0`. -/
theorem merge_idempotent_counterexample :
    (mergeWithServer (mergeWithServer [] [⟨"B", "Y"⟩, ⟨"b", "Z"⟩]).1.1
        [⟨"B", "Y"⟩, ⟨"b", "Z"⟩]).1.2.updated = 2 ∧
    ¬ ((mergeWithServer (mergeWithServer [] [⟨"B", "Y"⟩, ⟨"b", "Z"⟩]).1.1
          [⟨"B", "Y"⟩, ⟨"b", "Z"⟩]).1.2.added = 0 ∧
       (mergeWithServer (mergeWithServer [] [⟨"B", "Y"⟩, ⟨"b", "Z"⟩]).1.1
          [⟨"B", "Y"⟩, ⟨"b", "Z"⟩]).1.2.updated = 0) := by
  decide

/-- Claim C1 (corrected): reconciling twice against the identical snapshot
always yields `added = 0` on the second pass, and additionally `updated = 0`
whenever no two snapshot records share the same nonempty normalized text. -/
theorem merge_idempotent (s R : List Quote) :
    (mergeWithServer (mergeWithServer s R).1.1 R).1.2.added = 0 ∧
    ((snapKeys R).Nodup →
      (mergeWithServer (mergeWithServer s R).1.1 R).1.2.updated = 0) := by
  rw [mergeWithServer_def s R]
  dsimp only
  rw [mergeWithServer_def]
  dsimp only
  constructor
  · apply foldl_added_eq_of_keys
    intro r hr
    by_cases hk : normalizeText r.text = ""
    · exact Or.inl hk
    · refine Or.inr ?_
      have hmem := pass1_key_mem s R (s, ⟨0, 0, 0⟩) (fun k hk => hk) r hr hk
      rw [buildLocalMap_eq]
      rw [Ne, lastIdxOf_eq_none_iff]
      intro hc
      exact hc hmem
  · intro hnd
    have hmain := (pass1_matched s R (s, ⟨0, 0, 0⟩) [] (by simp) (by simp) hnd).1
    have hstable : ∀ r ∈ R,
        Stable (buildLocalMap
          ((R.foldl (mergeStep (buildLocalMap s)) (s, ⟨0, 0, 0⟩)).1))
          ((R.foldl (mergeStep (buildLocalMap s)) (s, ⟨0, 0, 0⟩)).1) r := by
      intro r hr
      by_cases hk : normalizeText r.text = ""
      · exact Or.inl hk
      · obtain ⟨idx, q, hlast, hgq, hcat⟩ := hmain r hr hk
        exact Or.inr ⟨idx, q, by rw [buildLocalMap_eq]; exact hlast, hgq, hcat⟩
    rw [foldl_of_stable _ _ _ R hstable]

/-- Claim C1 witness: a duplicate-free snapshot merged twice into the seed
store reports `added = 0` and `updated = 0` on the second pass. -/
theorem merge_idempotent_witness :
    (mergeWithServer (mergeWithServer initialQuotes [⟨"B", "Y"⟩]).1.1
        [⟨"B", "Y"⟩]).1.2.added = 0 ∧
    (mergeWithServer (mergeWithServer initialQuotes [⟨"B", "Y"⟩]).1.1
        [⟨"B", "Y"⟩]).1.2.updated = 0 := by
  have h := merge_idempotent initialQuotes [⟨"B", "Y"⟩]
  exact ⟨h.1, h.2 (by decide)⟩

/-- Claim C3 counterexample: a store already holding two entries with
normalized text `b` still holds both after a merge pass that even touches
that key — reconciliation never collapses duplicates. -/
theorem merge_unique_counterexample :
    (mergeWithServer [⟨"B", "X"⟩, ⟨"b", "X"⟩] [⟨"b", "Y"⟩]).1.1 =
      [⟨"B", "X"⟩, ⟨"b", "Y"⟩] ∧
    ¬ (keysOf (mergeWithServer [⟨"B", "X"⟩, ⟨"b", "X"⟩] [⟨"b", "Y"⟩]).1.1).Nodup := by
  decide

/-- Claim C3 (corrected): a merge pass preserves the at-most-one-entry-per-
normalized-text invariant — if the store starts duplicate-free and the
snapshot's nonempty normalized texts are pairwise distinct, the store is
still duplicate-free after the pass — but it does not collapse pre-existing
duplicates. -/
theorem merge_preserves_unique_keys (s R : List Quote)
    (hs : (keysOf s).Nodup) (hnd : (snapKeys R).Nodup) :
    (keysOf (mergeWithServer s R).1.1).Nodup := by
  rw [mergeWithServer_def]
  dsimp only
  exact pass1_nodup s R (s, ⟨0, 0, 0⟩) [] (by simp) (by simp) hnd hs

/-- Claim C3 witness: merging a fresh snapshot into the duplicate-free seed
store keeps keys duplicate-free. -/
theorem merge_preserves_unique_keys_witness :
    (keysOf (mergeWithServer initialQuotes [⟨"B", "Y"⟩]).1.1).Nodup :=
  merge_preserves_unique_keys initialQuotes [⟨"B", "Y"⟩] (by decide) (by decide)

/-- Claim C8 counterexample: loading the well-formed JSON array `[1]` (no
valid quote entries) empties the store instead of leaving it at its
prior/default state. -/
theorem loadQuotes_counterexample :
    loadQuotes (some (JsValue.arr [JsValue.num 1])) initialQuotes = [] ∧
    initialQuotes ≠ [] := by
  exact ⟨rfl, by decide⟩

/-- Claim C8 (corrected): an unparseable or non-array persisted value leaves
the store at its prior state (load never crashes — it is total), but a
parsed array replaces the store with its validated entries, so an array
with no valid entry leaves the store empty rather than untouched. -/
theorem loadQuotes_malformed (s : List Quote) :
    loadQuotes none s = s ∧
    (∀ v : JsValue, (∀ xs : List JsValue, v ≠ JsValue.arr xs) →
       loadQuotes (some v) s = s) ∧
    (∀ xs : List JsValue, (∀ x ∈ xs, loadEntry x = none) →
       loadQuotes (some (JsValue.arr xs)) s = []) := by
  refine ⟨rfl, ?_, ?_⟩
  · intro v hv
    cases v with
    | str a => rfl
    | num a => rfl
    | bool a => rfl
    | null => rfl
    | arr xs => exact absurd rfl (hv xs)
    | obj fields => rfl
  · intro xs hxs
    show xs.filterMap loadEntry = []
    exact List.filterMap_eq_nil_iff.mpr hxs

/-- Claim C8 witness: a non-JSON value, the non-array value `"x"`, and the
all-invalid array `[1]` behave as the corrected claim states on the seed
store. -/
theorem loadQuotes_malformed_witness :
    loadQuotes none initialQuotes = initialQuotes ∧
    loadQuotes (some (JsValue.str "x")) initialQuotes = initialQuotes ∧
    loadQuotes (some (JsValue.arr [JsValue.num 1])) initialQuotes = [] := by
  have h := loadQuotes_malformed initialQuotes
  refine ⟨h.1, h.2.1 (JsValue.str "x") ?_, h.2.2 [JsValue.num 1] ?_⟩
  · intro xs hc
    cases hc
  · intro x hx
    rw [List.mem_singleton.mp hx]
    rfl

end QuoteSync
